import Mathlib

/-!
Verification of the image-dedup server (`src/main.rs`) against its
natural-language specification.  The `analyzer`, `manager`, `cache` and
`disjoint_set` modules are declared in `main.rs` but their sources are not
part of the tree, so those components are modelled from the specification;
everything about the HTTP adapter (`AppError`, the handlers, the command
loop) is embedded directly from `main.rs`.
-/

namespace ImageDedup

/-! ### Disjoint-Set (union-find) -/

/-- Modelled from the spec: §4.1 Disjoint-Set / §3 "Disjoint-Set state".
The `disjoint_set` module is missing from the tree; the spec describes a
parent/rank mapping over indices `0..n-1`.  `parent`/`rank` are total maps,
only their values below `n` matter. -/
structure DSU where
  n : Nat
  parent : Nat → Nat
  rank : Nat → Nat

/-- Fuel-bounded walk to the root of the parent forest.  The spec's `find`
uses path compression; compression changes only the internal parent links,
never the representative returned, so the pure walk has the same
input/output behaviour. -/
def findAux (p : Nat → Nat) : Nat → Nat → Nat
  | 0, i => i
  | fuel + 1, i => if p i = i then i else findAux p fuel (p i)

/-- Modelled from the spec: §4.1 `find(i)` — representative of `i`'s class.
Fuel `n` suffices because ranks strictly increase along parent links. -/
def DSU.find (s : DSU) (i : Nat) : Nat :=
  findAux s.parent s.n i

/-- Modelled from the spec: §4.1 `make_set(n)` — n singleton classes. -/
def make_set (n : Nat) : DSU :=
  ⟨n, fun i => i, fun _ => 0⟩

/-- Redirect the (root) node `l` to point at `w`. -/
def linkF (l w : Nat) (p : Nat → Nat) : Nat → Nat :=
  fun x => if x = l then w else p x

/-- Increment the rank of `w`. -/
def bumpF (w : Nat) (rk : Nat → Nat) : Nat → Nat :=
  fun x => if x = w then rk x + 1 else rk x

/-- Modelled from the spec: §4.1 `union(i,j)` — merges classes by rank,
ties broken by lower index (the lower-indexed root wins and its rank is
bumped); no-op if already merged. -/
def DSU.union (s : DSU) (i j : Nat) : DSU :=
  let ri := s.find i
  let rj := s.find j
  if ri = rj then s
  else if s.rank ri < s.rank rj then
    ⟨s.n, linkF ri rj s.parent, s.rank⟩
  else if s.rank rj < s.rank ri then
    ⟨s.n, linkF rj ri s.parent, s.rank⟩
  else if ri < rj then
    ⟨s.n, linkF rj ri s.parent, bumpF ri s.rank⟩
  else
    ⟨s.n, linkF ri rj s.parent, bumpF rj s.rank⟩

/-- Run a sequence of union operations starting from `make_set n`. -/
def runOps (n : Nat) (ops : List (Nat × Nat)) : DSU :=
  ops.foldl (fun s q => s.union q.1 q.2) (make_set n)

/-- All operands of the union sequence are in range (out-of-range indices
are a programming error per §4.1). -/
def ValidOps (n : Nat) (ops : List (Nat × Nat)) : Prop :=
  ∀ q ∈ ops, q.1 < n ∧ q.2 < n

instance (n : Nat) (ops : List (Nat × Nat)) : Decidable (ValidOps n ops) := by
  unfold ValidOps; infer_instance

/-- The base relation of a union sequence: the pairs that were unioned. -/
def opRel (ops : List (Nat × Nat)) (a b : Nat) : Prop :=
  (a, b) ∈ ops

/-- Indices `a` and `b` are connected by some chain of unions. -/
def Connected (ops : List (Nat × Nat)) (a b : Nat) : Prop :=
  Relation.EqvGen (opRel ops) a b

/-! #### Forest invariant and `find` facts -/

/-- Parent links stay in range and ranks strictly increase along
non-trivial parent links. -/
def PInv (n : Nat) (p : Nat → Nat) (rk : Nat → Nat) : Prop :=
  (∀ i, i < n → p i < n) ∧ (∀ i, i < n → p i ≠ i → rk i < rk (p i))

def Inv (s : DSU) : Prop :=
  PInv s.n s.parent s.rank

/-- Node `x` reaches `r` by following parent links. -/
def Reaches (p : Nat → Nat) (x r : Nat) : Prop :=
  ∃ k, p^[k] x = r

theorem reaches_refl (p : Nat → Nat) (x : Nat) : Reaches p x x :=
  ⟨0, rfl⟩

theorem reaches_step (p : Nat → Nat) {x r : Nat} (h : Reaches p (p x) r) :
    Reaches p x r := by
  obtain ⟨k, hk⟩ := h
  exact ⟨k + 1, by rwa [Function.iterate_succ_apply]⟩

theorem findAux_of_root (p : Nat → Nat) (fuel r : Nat) (h : p r = r) :
    findAux p fuel r = r := by
  induction fuel with
  | zero => rfl
  | succ fuel _ => simp [findAux, h]

/-- Nodes with strictly larger rank than `x`: the termination measure. -/
def biggerRanks (n : Nat) (rk : Nat → Nat) (x : Nat) : Finset Nat :=
  (Finset.range n).filter (fun j => rk x < rk j)

theorem biggerRanks_card_lt {n : Nat} (rk : Nat → Nat) {x : Nat} (hx : x < n) :
    (biggerRanks n rk x).card < n := by
  have hsub : biggerRanks n rk x ⊂ Finset.range n := by
    refine Finset.ssubset_iff_of_subset (Finset.filter_subset _ _) |>.mpr ?_
    exact ⟨x, Finset.mem_range.mpr hx, by simp [biggerRanks]⟩
  simpa using Finset.card_lt_card hsub

theorem findAux_spec {n : Nat} {p rk : Nat → Nat} (h : PInv n p rk) :
    ∀ fuel x, x < n → (biggerRanks n rk x).card < fuel →
      (p (findAux p fuel x) = findAux p fuel x) ∧ Reaches p x (findAux p fuel x) := by
  intro fuel
  induction fuel with
  | zero => intro x _ hcard; omega
  | succ fuel ih =>
    intro x hx hcard
    by_cases hroot : p x = x
    · simp only [findAux, hroot, if_pos rfl]
      exact ⟨hroot, reaches_refl p x⟩
    · have hpx : p x < n := h.1 x hx
      have hrk : rk x < rk (p x) := h.2 x hx hroot
      have hss : biggerRanks n rk (p x) ⊂ biggerRanks n rk x := by
        constructor
        · intro j hj
          simp only [biggerRanks, Finset.mem_filter] at hj ⊢
          exact ⟨hj.1, lt_trans hrk hj.2⟩
        · intro hsub
          have : p x ∈ biggerRanks n rk x := by
            simp [biggerRanks, Finset.mem_filter, hpx, hrk]
          have := hsub this
          simp [biggerRanks, Finset.mem_filter] at this
      have hcard2 : (biggerRanks n rk (p x)).card < fuel := by
        have := Finset.card_lt_card hss
        omega
      have := ih (p x) hpx hcard2
      simp only [findAux, if_neg hroot]
      exact ⟨this.1, reaches_step p this.2⟩

theorem reaches_root_unique {p : Nat → Nat} {x r1 r2 : Nat}
    (h1 : Reaches p x r1) (hr1 : p r1 = r1)
    (h2 : Reaches p x r2) (hr2 : p r2 = r2) : r1 = r2 := by
  obtain ⟨k1, hk1⟩ := h1
  obtain ⟨k2, hk2⟩ := h2
  rcases le_total k1 k2 with hle | hle
  · have : p^[k2] x = p^[k2 - k1] (p^[k1] x) := by
      rw [← Function.iterate_add_apply]
      congr 1
      omega
    rw [hk1, Function.iterate_fixed hr1] at this
    rw [hk2] at this
    exact this.symm
  · have : p^[k1] x = p^[k1 - k2] (p^[k2] x) := by
      rw [← Function.iterate_add_apply]
      congr 1
      omega
    rw [hk2, Function.iterate_fixed hr2] at this
    rw [hk1] at this
    exact this

theorem find_isRoot (s : DSU) (h : Inv s) (x : Nat) (hx : x < s.n) :
    s.parent (s.find x) = s.find x ∧ Reaches s.parent x (s.find x) :=
  findAux_spec h s.n x hx (biggerRanks_card_lt s.rank hx)

theorem reaches_lt {n : Nat} {p rk : Nat → Nat} (h : PInv n p rk)
    {x r : Nat} (hx : x < n) (hr : Reaches p x r) : r < n := by
  obtain ⟨k, hk⟩ := hr
  subst hk
  induction k with
  | zero => simpa using hx
  | succ k ih =>
    rw [Function.iterate_succ_apply']
    exact h.1 _ ih

theorem find_eq_of_reaches (s : DSU) (h : Inv s) {x r : Nat} (hx : x < s.n)
    (hr : Reaches s.parent x r) (hroot : s.parent r = r) : s.find x = r := by
  obtain ⟨h1, h2⟩ := find_isRoot s h x hx
  exact reaches_root_unique h2 h1 hr hroot

theorem find_lt (s : DSU) (h : Inv s) {x : Nat} (hx : x < s.n) :
    s.find x < s.n :=
  reaches_lt h hx (find_isRoot s h x hx).2

/-! #### `make_set` facts -/

theorem make_set_inv (n : Nat) : Inv (make_set n) := by
  constructor
  · intro i hi; exact hi
  · intro i _ hne; exact absurd rfl hne

theorem make_set_find (n : Nat) (x : Nat) : (make_set n).find x = x := by
  unfold DSU.find make_set
  exact findAux_of_root _ n x rfl

/-! #### Linking one root under another -/

theorem reaches_link_to_w {p : Nat → Nat} {l w : Nat} :
    ∀ k y, p^[k] y = l → Reaches (linkF l w p) y w := by
  intro k
  induction k with
  | zero =>
    intro y hy
    subst hy
    exact ⟨1, by simp [linkF]⟩
  | succ k ih =>
    intro y hy
    by_cases hyl : y = l
    · subst hyl
      exact ⟨1, by simp [linkF]⟩
    · rw [Function.iterate_succ_apply] at hy
      have := ih (p y) hy
      obtain ⟨m, hm⟩ := this
      refine ⟨m + 1, ?_⟩
      rw [Function.iterate_succ_apply]
      simpa [linkF, hyl] using hm

theorem reaches_link_of_avoid {p : Nat → Nat} {l w r : Nat} (hrl : p l = l)
    (hr : r ≠ l) : ∀ k y, p^[k] y = r → Reaches (linkF l w p) y r := by
  intro k
  induction k with
  | zero =>
    intro y hy
    subst hy
    exact reaches_refl _ y
  | succ k ih =>
    intro y hy
    rw [Function.iterate_succ_apply] at hy
    by_cases hyl : y = l
    · subst hyl
      rw [hrl] at hy
      rw [Function.iterate_fixed hrl] at hy
      exact absurd hy.symm hr
    · obtain ⟨m, hm⟩ := ih (p y) hy
      refine ⟨m + 1, ?_⟩
      rw [Function.iterate_succ_apply]
      simpa [linkF, hyl] using hm

theorem link_step (s : DSU) (h : Inv s) {l w : Nat} (hw : w < s.n)
    (hrl : s.parent l = l) (hrw : s.parent w = w) (hne : l ≠ w) (rk2 : Nat → Nat)
    (hrk : ∀ x, x < s.n → linkF l w s.parent x ≠ x →
      rk2 x < rk2 (linkF l w s.parent x)) :
    Inv ⟨s.n, linkF l w s.parent, rk2⟩ ∧
    ∀ x, x < s.n →
      (⟨s.n, linkF l w s.parent, rk2⟩ : DSU).find x =
        if s.find x = l then w else s.find x := by
  have hclosed : ∀ i, i < s.n → linkF l w s.parent i < s.n := by
    intro i hi
    by_cases hil : i = l
    · simpa [linkF, hil] using hw
    · simpa [linkF, hil] using h.1 i hi
  have hinv2 : Inv ⟨s.n, linkF l w s.parent, rk2⟩ := ⟨hclosed, hrk⟩
  refine ⟨hinv2, ?_⟩
  intro x hx
  obtain ⟨hroot, hreach⟩ := find_isRoot s h x hx
  obtain ⟨k, hk⟩ := hreach
  by_cases hfl : s.find x = l
  · rw [if_pos hfl]
    rw [hfl] at hk
    have hreach2 : Reaches (linkF l w s.parent) x w := reaches_link_to_w k x hk
    have hrootw : linkF l w s.parent w = w := by
      simp [linkF, (Ne.symm hne), hrw]
    exact find_eq_of_reaches _ hinv2 hx hreach2 hrootw
  · rw [if_neg hfl]
    have hreach2 : Reaches (linkF l w s.parent) x (s.find x) :=
      reaches_link_of_avoid hrl hfl k x hk
    have hrootr : linkF l w s.parent (s.find x) = s.find x := by
      simp [linkF, hfl, hroot]
    exact find_eq_of_reaches _ hinv2 hx hreach2 hrootr

/-- Case analysis on `union`: either the two classes already coincide and
the state is unchanged, or exactly the two classes of `i` and `j` are
merged (one of the two roots wins) and nothing else changes. -/
theorem union_cases (s : DSU) (h : Inv s) (i j : Nat) (hi : i < s.n) (hj : j < s.n) :
    (s.find i = s.find j ∧ s.union i j = s) ∨
    (s.find i ≠ s.find j ∧ ∃ w l,
      ((w = s.find i ∧ l = s.find j) ∨ (w = s.find j ∧ l = s.find i)) ∧
      (s.union i j).n = s.n ∧ Inv (s.union i j) ∧
      ∀ x, x < s.n → (s.union i j).find x = if s.find x = l then w else s.find x) := by
  by_cases heq : s.find i = s.find j
  · left
    refine ⟨heq, ?_⟩
    unfold DSU.union
    simp [heq]
  · right
    refine ⟨heq, ?_⟩
    have hri : s.find i < s.n := find_lt s h hi
    have hrj : s.find j < s.n := find_lt s h hj
    have hrooti : s.parent (s.find i) = s.find i := by
      have := find_isRoot s h i hi
      exact this.1
    have hrootj : s.parent (s.find j) = s.find j := by
      have := find_isRoot s h j hj
      exact this.1
    by_cases h1 : s.rank (s.find i) < s.rank (s.find j)
    · -- find i loses, find j wins, ranks unchanged
      have hstep := link_step s h hrj hrooti hrootj heq s.rank (by
        intro x hx hne2
        by_cases hxl : x = s.find i
        · subst hxl
          simpa [linkF] using h1
        · simp only [linkF, if_neg hxl] at hne2 ⊢
          exact h.2 x hx hne2)
      have hu : s.union i j = ⟨s.n, linkF (s.find i) (s.find j) s.parent, s.rank⟩ := by
        unfold DSU.union
        simp [heq, h1]
      refine ⟨s.find j, s.find i, Or.inr ⟨rfl, rfl⟩, by rw [hu], by rw [hu]; exact hstep.1, ?_⟩
      intro x hx
      rw [hu]
      exact hstep.2 x hx
    · by_cases h2 : s.rank (s.find j) < s.rank (s.find i)
      · -- find j loses, find i wins, ranks unchanged
        have hstep := link_step s h hri hrootj hrooti (Ne.symm heq) s.rank (by
          intro x hx hne2
          by_cases hxl : x = s.find j
          · subst hxl
            simpa [linkF] using h2
          · simp only [linkF, if_neg hxl] at hne2 ⊢
            exact h.2 x hx hne2)
        have hu : s.union i j = ⟨s.n, linkF (s.find j) (s.find i) s.parent, s.rank⟩ := by
          unfold DSU.union
          simp [heq, h1, h2]
        refine ⟨s.find i, s.find j, Or.inl ⟨rfl, rfl⟩, by rw [hu], by rw [hu]; exact hstep.1, ?_⟩
        intro x hx
        rw [hu]
        exact hstep.2 x hx
      · have hrkeq : s.rank (s.find i) = s.rank (s.find j) := by omega
        by_cases h3 : s.find i < s.find j
        · -- tie, lower index wins: find j loses, find i wins, rank of find i bumped
          have hstep := link_step s h hri hrootj hrooti (Ne.symm heq)
            (bumpF (s.find i) s.rank) (by
              intro x hx hne2
              by_cases hxl : x = s.find j
              · subst hxl
                have hne3 : s.find j ≠ s.find i := Ne.symm heq
                have e1 : linkF (s.find j) (s.find i) s.parent (s.find j) = s.find i := by
                  simp [linkF]
                rw [e1]
                have e2 : bumpF (s.find i) s.rank (s.find j) = s.rank (s.find j) := by
                  simp [bumpF, hne3]
                have e3 : bumpF (s.find i) s.rank (s.find i) = s.rank (s.find i) + 1 := by
                  simp [bumpF]
                rw [e2, e3]
                omega
              · simp only [linkF, if_neg hxl] at hne2 ⊢
                have hxr : x ≠ s.find i := by
                  intro hcon
                  subst hcon
                  exact hne2 hrooti
                have hold := h.2 x hx hne2
                simp only [bumpF, if_neg hxr]
                by_cases hpxr : s.parent x = s.find i
                · rw [if_pos hpxr]
                  omega
                · rw [if_neg hpxr]
                  exact hold)
          have hu : s.union i j =
              ⟨s.n, linkF (s.find j) (s.find i) s.parent, bumpF (s.find i) s.rank⟩ := by
            unfold DSU.union
            simp [heq, h1, h2, h3]
          refine ⟨s.find i, s.find j, Or.inl ⟨rfl, rfl⟩, by rw [hu], by rw [hu]; exact hstep.1, ?_⟩
          intro x hx
          rw [hu]
          exact hstep.2 x hx
        · -- tie, lower index wins: find i loses, find j wins, rank of find j bumped
          have hstep := link_step s h hrj hrooti hrootj heq
            (bumpF (s.find j) s.rank) (by
              intro x hx hne2
              by_cases hxl : x = s.find i
              · subst hxl
                have e1 : linkF (s.find i) (s.find j) s.parent (s.find i) = s.find j := by
                  simp [linkF]
                rw [e1]
                have e2 : bumpF (s.find j) s.rank (s.find i) = s.rank (s.find i) := by
                  simp [bumpF, heq]
                have e3 : bumpF (s.find j) s.rank (s.find j) = s.rank (s.find j) + 1 := by
                  simp [bumpF]
                rw [e2, e3]
                omega
              · simp only [linkF, if_neg hxl] at hne2 ⊢
                have hxr : x ≠ s.find j := by
                  intro hcon
                  subst hcon
                  exact hne2 hrootj
                have hold := h.2 x hx hne2
                simp only [bumpF, if_neg hxr]
                by_cases hpxr : s.parent x = s.find j
                · rw [if_pos hpxr]
                  omega
                · rw [if_neg hpxr]
                  exact hold)
          have hu : s.union i j =
              ⟨s.n, linkF (s.find i) (s.find j) s.parent, bumpF (s.find j) s.rank⟩ := by
            unfold DSU.union
            simp [heq, h1, h2, h3]
          refine ⟨s.find j, s.find i, Or.inr ⟨rfl, rfl⟩, by rw [hu], by rw [hu]; exact hstep.1, ?_⟩
          intro x hx
          rw [hu]
          exact hstep.2 x hx

theorem union_n (s : DSU) (h : Inv s) (i j : Nat) (hi : i < s.n) (hj : j < s.n) :
    (s.union i j).n = s.n := by
  rcases union_cases s h i j hi hj with ⟨_, hu⟩ | ⟨_, _, _, _, hn, _, _⟩
  · rw [hu]
  · exact hn

theorem union_inv (s : DSU) (h : Inv s) (i j : Nat) (hi : i < s.n) (hj : j < s.n) :
    Inv (s.union i j) := by
  rcases union_cases s h i j hi hj with ⟨_, hu⟩ | ⟨_, _, _, _, _, hinv, _⟩
  · rw [hu]; exact h
  · exact hinv

theorem merge_preserves (s : DSU) (h : Inv s) (i j : Nat) (hi : i < s.n) (hj : j < s.n)
    {x y : Nat} (hx : x < s.n) (hy : y < s.n) (hxy : s.find x = s.find y) :
    (s.union i j).find x = (s.union i j).find y := by
  rcases union_cases s h i j hi hj with ⟨_, hu⟩ | ⟨_, w, l, _, _, _, hform⟩
  · rw [hu]; exact hxy
  · rw [hform x hx, hform y hy, hxy]

theorem union_connects (s : DSU) (h : Inv s) (i j : Nat) (hi : i < s.n) (hj : j < s.n) :
    (s.union i j).find i = (s.union i j).find j := by
  rcases union_cases s h i j hi hj with ⟨heq, hu⟩ | ⟨hne, w, l, hor, _, _, hform⟩
  · rw [hu]; exact heq
  · rw [hform i hi, hform j hj]
    rcases hor with ⟨hw, hl⟩ | ⟨hw, hl⟩ <;> subst hw <;> subst hl <;>
      split_ifs <;> omega

theorem union_sameSet_iff (s : DSU) (h : Inv s) (i j : Nat) (hi : i < s.n) (hj : j < s.n)
    {x y : Nat} (hx : x < s.n) (hy : y < s.n) :
    ((s.union i j).find x = (s.union i j).find y) ↔
      (s.find x = s.find y ∨
        ((s.find x = s.find i ∨ s.find x = s.find j) ∧
         (s.find y = s.find i ∨ s.find y = s.find j))) := by
  rcases union_cases s h i j hi hj with ⟨heq, hu⟩ | ⟨hne, w, l, hor, _, _, hform⟩
  · rw [hu]
    constructor
    · exact fun hxy => Or.inl hxy
    · rintro (hxy | ⟨hx1 | hx1, hy1 | hy1⟩) <;> omega
  · rw [hform x hx, hform y hy]
    rcases hor with ⟨hw, hl⟩ | ⟨hw, hl⟩ <;> subst hw <;> subst hl <;>
      split_ifs <;> omega

theorem runOps_append (n : Nat) (ops : List (Nat × Nat)) (q : Nat × Nat) :
    runOps n (ops ++ [q]) = (runOps n ops).union q.1 q.2 := by
  unfold runOps
  rw [List.foldl_append]
  rfl

theorem foldl_union_n_inv (n : Nat) :
    ∀ (ops : List (Nat × Nat)) (s : DSU), s.n = n → Inv s → ValidOps n ops →
      (ops.foldl (fun t q => t.union q.1 q.2) s).n = n ∧
      Inv (ops.foldl (fun t q => t.union q.1 q.2) s) := by
  intro ops
  induction ops with
  | nil =>
    intro s h1 h2 _
    exact ⟨h1, h2⟩
  | cons q ops ih =>
    intro s h1 h2 hv
    have hq := hv q (List.mem_cons_self q ops)
    have hq1 : q.1 < s.n := by omega
    have hq2 : q.2 < s.n := by omega
    have hn : (s.union q.1 q.2).n = n := by
      rw [union_n s h2 q.1 q.2 hq1 hq2]
      exact h1
    have hinv : Inv (s.union q.1 q.2) := union_inv s h2 q.1 q.2 hq1 hq2
    have hv2 : ValidOps n ops := fun r hr => hv r (List.mem_cons_of_mem q hr)
    simpa using ih (s.union q.1 q.2) hn hinv hv2

theorem runOps_n (n : Nat) (ops : List (Nat × Nat)) (h : ValidOps n ops) :
    (runOps n ops).n = n :=
  (foldl_union_n_inv n ops (make_set n) rfl (make_set_inv n) h).1

theorem runOps_inv (n : Nat) (ops : List (Nat × Nat)) (h : ValidOps n ops) :
    Inv (runOps n ops) :=
  (foldl_union_n_inv n ops (make_set n) rfl (make_set_inv n) h).2

theorem connected_mono {ops ops2 : List (Nat × Nat)}
    (hsub : ∀ q ∈ ops, q ∈ ops2) {a b : Nat} (h : Connected ops a b) :
    Connected ops2 a b :=
  Relation.EqvGen.mono (fun x y hxy => hsub (x, y) hxy) h

theorem connected_nil {a b : Nat} (h : Connected [] a b) : a = b := by
  induction h with
  | rel x y hxy => simp [opRel] at hxy
  | refl x => rfl
  | symm x y _ ih => exact ih.symm
  | trans x y z _ _ ih1 ih2 => exact ih1.trans ih2

theorem find_iff_connected (n : Nat) :
    ∀ ops, ValidOps n ops → ∀ a b, a < n → b < n →
      ((runOps n ops).find a = (runOps n ops).find b ↔ Connected ops a b) := by
  intro ops
  induction ops using List.reverseRecOn with
  | nil =>
    intro _ a b ha hb
    rw [show runOps n [] = make_set n from rfl, make_set_find, make_set_find]
    constructor
    · intro hab
      subst hab
      exact Relation.EqvGen.refl a
    · exact connected_nil
  | append_singleton ops q ih =>
    intro hv a b ha hb
    have hvops : ValidOps n ops := fun r hr => hv r (List.mem_append_left _ hr)
    have hq : q.1 < n ∧ q.2 < n := by
      have : q ∈ ops ++ [q] := List.mem_append_right _ (List.mem_singleton.mpr rfl)
      exact hv q this
    have hsn : (runOps n ops).n = n := runOps_n n ops hvops
    have hsi : Inv (runOps n ops) := runOps_inv n ops hvops
    have hq1 : q.1 < (runOps n ops).n := by omega
    have hq2 : q.2 < (runOps n ops).n := by omega
    have ha' : a < (runOps n ops).n := by omega
    have hb' : b < (runOps n ops).n := by omega
    rw [runOps_append]
    rw [union_sameSet_iff (runOps n ops) hsi q.1 q.2 hq1 hq2 ha' hb']
    have hconn_q : Connected (ops ++ [q]) q.1 q.2 := by
      refine Relation.EqvGen.rel _ _ ?_
      show (q.1, q.2) ∈ ops ++ [q]
      simp
    constructor
    · rintro (hab | ⟨hai | haj, hbi | hbj⟩)
      · exact connected_mono (fun r hr => List.mem_append_left _ hr)
          ((ih hvops a b ha hb).mp hab)
      all_goals {
        first
        | (have hca : Connected ops a q.1 := (ih hvops a q.1 ha hq.1).mp hai)
        | (have hca : Connected ops a q.2 := (ih hvops a q.2 ha hq.2).mp haj)
        first
        | (have hcb : Connected ops b q.1 := (ih hvops b q.1 hb hq.1).mp hbi)
        | (have hcb : Connected ops b q.2 := (ih hvops b q.2 hb hq.2).mp hbj)
        have hca2 := connected_mono (fun r hr => List.mem_append_left [q] hr) hca
        have hcb2 := connected_mono (fun r hr => List.mem_append_left [q] hr) hcb
        first
        | exact hca2.trans _ _ _ (hcb2.symm _ _)
        | exact (hca2.trans _ _ _ hconn_q).trans _ _ _ (hcb2.symm _ _)
        | exact (hca2.trans _ _ _ (hconn_q.symm _ _)).trans _ _ _ (hcb2.symm _ _)
      }
    · intro hconn
      have key : ∀ x y : Nat, Connected (ops ++ [q]) x y →
          ((runOps n ops).union q.1 q.2).find x = ((runOps n ops).union q.1 q.2).find y := by
        intro x y hxy
        induction hxy with
        | rel u v huv =>
          rcases List.mem_append.mp huv with hin | hin
          · have hu : u < n ∧ v < n := hvops (u, v) hin
            have := (ih hvops u v hu.1 hu.2).mpr (Relation.EqvGen.rel _ _ hin)
            exact merge_preserves (runOps n ops) hsi q.1 q.2 hq1 hq2
              (by omega) (by omega) this
          · have : (u, v) = q := List.mem_singleton.mp hin
            have hu : u = q.1 := by rw [← this]
            have hv2 : v = q.2 := by rw [← this]
            subst hu
            subst hv2
            exact union_connects (runOps n ops) hsi q.1 q.2 hq1 hq2
        | refl u => rfl
        | symm u v _ ihuv => exact ihuv.symm
        | trans u v w _ _ ih1 ih2 => exact ih1.trans ih2
      have := key a b hconn
      rw [union_sameSet_iff (runOps n ops) hsi q.1 q.2 hq1 hq2 ha' hb'] at this
      exact this

/-! #### `groups()` -/

/-- Whether `i` is the smallest index of its class. -/
def isClassMin (s : DSU) (i : Nat) : Bool :=
  (List.range i).all (fun j => s.find j != s.find i)

/-- The smallest member of each class, in increasing order. -/
def minReps (s : DSU) : List Nat :=
  (List.range s.n).filter (fun i => isClassMin s i)

/-- The members of `m`'s class, in increasing index order. -/
def classOf (s : DSU) (m : Nat) : List Nat :=
  (List.range s.n).filter (fun i => s.find i == s.find m)

/-- Modelled from the spec: §4.1 `groups()` — finite sequence of classes,
each an increasing-index sequence, ordered by smallest member. -/
def DSU.groups (s : DSU) : List (List Nat) :=
  (minReps s).map (classOf s)

theorem isClassMin_iff (s : DSU) (i : Nat) :
    isClassMin s i = true ↔ ∀ j, j < i → s.find j ≠ s.find i := by
  simp [isClassMin, List.all_eq_true, List.mem_range]

theorem mem_minReps (s : DSU) (m : Nat) :
    m ∈ minReps s ↔ m < s.n ∧ ∀ j, j < m → s.find j ≠ s.find m := by
  simp [minReps, List.mem_filter, List.mem_range, isClassMin_iff]

theorem mem_classOf (s : DSU) (m x : Nat) :
    x ∈ classOf s m ↔ x < s.n ∧ s.find x = s.find m := by
  simp [classOf, List.mem_filter, List.mem_range]

theorem nodup_minReps (s : DSU) : (minReps s).Nodup :=
  (List.nodup_range s.n).filter _

theorem pairwise_minReps (s : DSU) : (minReps s).Pairwise (· < ·) :=
  (List.pairwise_lt_range s.n).filter _

theorem pairwise_classOf (s : DSU) (m : Nat) : (classOf s m).Pairwise (· < ·) :=
  (List.pairwise_lt_range s.n).filter _

theorem count_classOf (s : DSU) (m x : Nat) :
    (classOf s m).count x = if x < s.n ∧ s.find x = s.find m then 1 else 0 := by
  by_cases h1 : s.find x = s.find m
  · unfold classOf
    rw [List.count_filter (by simp [h1])]
    by_cases h2 : x < s.n
    · rw [List.count_eq_one_of_mem (List.nodup_range s.n) (List.mem_range.mpr h2)]
      simp [h1, h2]
    · rw [List.count_eq_zero_of_not_mem (by simp [h2])]
      simp [h2]
  · rw [List.count_eq_zero_of_not_mem (by simp [mem_classOf, h1])]
    simp [h1]

theorem exists_minRep (s : DSU) (x : Nat) (hx : x < s.n) :
    ∃ m ∈ minReps s, s.find m = s.find x := by
  have hP : ∃ m, s.find m = s.find x := ⟨x, rfl⟩
  refine ⟨Nat.find hP, ?_, Nat.find_spec hP⟩
  rw [mem_minReps]
  constructor
  · have : Nat.find hP ≤ x := Nat.find_min' hP rfl
    omega
  · intro j hj hfind
    exact Nat.find_min hP hj (hfind.trans (Nat.find_spec hP))

theorem unique_minRep (s : DSU) {a b : Nat} (ha : a ∈ minReps s) (hb : b ∈ minReps s)
    (hfa : s.find a = s.find b) : a = b := by
  rcases lt_trichotomy a b with h | h | h
  · exact absurd hfa (((mem_minReps s b).mp hb).2 a h)
  · exact h
  · exact absurd hfa.symm (((mem_minReps s a).mp ha).2 b h)

theorem sum_ite_unique (Q : Nat → Prop) [DecidablePred Q] :
    ∀ (l : List Nat), (∃ m ∈ l, Q m) → (∀ a ∈ l, ∀ b ∈ l, Q a → Q b → a = b) →
      l.Nodup → (l.map (fun m => if Q m then 1 else 0)).sum = 1 := by
  intro l
  induction l with
  | nil => intro hex _ _; simp at hex
  | cons a l ih =>
    intro hex huniq hnodup
    by_cases hQa : Q a
    · simp only [List.map_cons, List.sum_cons, if_pos hQa]
      have hzero : ∀ m ∈ l, ¬ Q m := by
        intro m hm hQm
        have heq := huniq a (List.mem_cons_self a l) m (List.mem_cons_of_mem a hm) hQa hQm
        rw [heq] at hnodup
        exact (List.nodup_cons.mp hnodup).1 hm
      have hsum : (l.map (fun m => if Q m then 1 else 0)).sum = 0 := by
        apply List.sum_eq_zero
        intro y hy
        obtain ⟨m, hm, hym⟩ := List.mem_map.mp hy
        rw [← hym, if_neg (hzero m hm)]
      omega
    · simp only [List.map_cons, List.sum_cons, if_neg hQa]
      obtain ⟨m, hm, hQm⟩ := hex
      rcases List.mem_cons.mp hm with h | h
      · rw [h] at hQm
        exact absurd hQm hQa
      · have := ih ⟨m, h, hQm⟩
          (fun a2 ha2 b hb => huniq a2 (List.mem_cons_of_mem a ha2) b (List.mem_cons_of_mem a hb))
          (List.nodup_cons.mp hnodup).2
        omega

theorem groups_count (s : DSU) (x : Nat) (hx : x < s.n) :
    (s.groups.flatten).count x = 1 := by
  rw [DSU.groups, List.count_flatten, List.map_map]
  have hmap : ((minReps s).map (List.count x ∘ classOf s)) =
      (minReps s).map (fun m => if s.find x = s.find m then 1 else 0) := by
    apply List.map_congr_left
    intro m _
    simp only [Function.comp_apply, count_classOf]
    simp [hx]
  rw [hmap]
  obtain ⟨m0, hm0, hfm0⟩ := exists_minRep s x hx
  exact sum_ite_unique (fun m => s.find x = s.find m) (minReps s)
    ⟨m0, hm0, hfm0.symm⟩
    (fun a ha b hb hQa hQb => unique_minRep s ha hb (hQa.symm.trans hQb))
    (nodup_minReps s)

theorem classOf_head (s : DSU) (m : Nat) (hm : m ∈ minReps s) :
    (classOf s m).headD 0 = m := by
  have hmem : m ∈ classOf s m := by
    rw [mem_classOf]
    exact ⟨((mem_minReps s m).mp hm).1, rfl⟩
  have hle : ∀ j ∈ classOf s m, m ≤ j := by
    intro j hj
    rw [mem_classOf] at hj
    by_contra hlt
    exact ((mem_minReps s m).mp hm).2 j (by omega) hj.2
  match hcl : classOf s m with
  | [] => rw [hcl] at hmem; simp at hmem
  | a :: t =>
    rw [hcl] at hmem hle
    have hpw := pairwise_classOf s m
    rw [hcl] at hpw
    have ham : m ≤ a := hle a (List.mem_cons_self a t)
    rcases List.mem_cons.mp hmem with h | h
    · simp [h]
    · have : a < m := (List.pairwise_cons.mp hpw).1 m h
      omega

theorem classOf_ne_nil (s : DSU) (m : Nat) (hm : m ∈ minReps s) :
    classOf s m ≠ [] := by
  intro hcl
  have hmem : m ∈ classOf s m := by
    rw [mem_classOf]
    exact ⟨((mem_minReps s m).mp hm).1, rfl⟩
  rw [hcl] at hmem
  simp at hmem

theorem groups_heads (s : DSU) :
    s.groups.map (fun g => g.headD 0) = minReps s := by
  rw [DSU.groups, List.map_map]
  have : ((minReps s).map ((fun g => g.headD 0) ∘ classOf s)) =
      (minReps s).map (fun m => m) := by
    apply List.map_congr_left
    intro m hm
    simp only [Function.comp_apply]
    exact classOf_head s m hm
  rw [this, List.map_id']

/-! #### Claim theorems for the Disjoint-Set -/

/-- C1: For every sequence of union operations on a Disjoint-Set created by
`make_set(n)`, `find(a) == find(b)` holds if and only if `a` and `b` are
connected by some chain of unions; `groups()` returns a partition in which
every index `0..n-1` appears exactly once; and classes only merge under
union, never split. -/
theorem dsu_spec_correct (n : Nat) (ops : List (Nat × Nat)) (hops : ValidOps n ops) :
    (∀ a b, a < n → b < n →
      ((runOps n ops).find a = (runOps n ops).find b ↔ Connected ops a b)) ∧
    (∀ i, i < n → (runOps n ops).groups.flatten.count i = 1) ∧
    (∀ more, ValidOps n more → ∀ a b, a < n → b < n →
      (runOps n ops).find a = (runOps n ops).find b →
      (runOps n (ops ++ more)).find a = (runOps n (ops ++ more)).find b) := by
  refine ⟨fun a b ha hb => find_iff_connected n ops hops a b ha hb, ?_, ?_⟩
  · intro i hi
    have hn := runOps_n n ops hops
    exact groups_count (runOps n ops) i (by omega)
  · intro more hmore a b ha hb hab
    have hconn : Connected ops a b := (find_iff_connected n ops hops a b ha hb).mp hab
    have hv2 : ValidOps n (ops ++ more) := by
      intro q hq
      rcases List.mem_append.mp hq with h | h
      · exact hops q h
      · exact hmore q h
    have hconn2 : Connected (ops ++ more) a b :=
      connected_mono (fun q hq => List.mem_append_left _ hq) hconn
    exact (find_iff_connected n (ops ++ more) hv2 a b ha hb).mpr hconn2

theorem dsu_spec_correct_witness :
    ValidOps 3 [(0, 1)] ∧
    ((∀ a b, a < 3 → b < 3 →
      ((runOps 3 [(0, 1)]).find a = (runOps 3 [(0, 1)]).find b ↔ Connected [(0, 1)] a b)) ∧
    (∀ i, i < 3 → (runOps 3 [(0, 1)]).groups.flatten.count i = 1) ∧
    (∀ more, ValidOps 3 more → ∀ a b, a < 3 → b < 3 →
      (runOps 3 [(0, 1)]).find a = (runOps 3 [(0, 1)]).find b →
      (runOps 3 ([(0, 1)] ++ more)).find a = (runOps 3 ([(0, 1)] ++ more)).find b)) :=
  ⟨by decide, dsu_spec_correct 3 [(0, 1)] (by decide)⟩

/-- C8: For every Disjoint-Set state, `groups()` returns a finite sequence
of classes in which each class is a nonempty sequence of indices in
strictly increasing order, the head of each class is its smallest member,
and the classes are ordered by their smallest member. -/
theorem groups_ordered (s : DSU) :
    (∀ g ∈ s.groups, g.Pairwise (· < ·)) ∧
    (∀ g ∈ s.groups, g ≠ []) ∧
    ((s.groups.map (fun g => g.headD 0)).Pairwise (· < ·)) ∧
    (∀ g ∈ s.groups, ∀ x ∈ g, g.headD 0 ≤ x) := by
  refine ⟨?_, ?_, ?_, ?_⟩
  · intro g hg
    obtain ⟨m, _, hgm⟩ := List.mem_map.mp hg
    rw [← hgm]
    exact pairwise_classOf s m
  · intro g hg
    obtain ⟨m, hm, hgm⟩ := List.mem_map.mp hg
    rw [← hgm]
    exact classOf_ne_nil s m hm
  · rw [groups_heads]
    exact pairwise_minReps s
  · intro g hg x hxg
    obtain ⟨m, hm, hgm⟩ := List.mem_map.mp hg
    subst hgm
    rw [classOf_head s m hm]
    rw [mem_classOf] at hxg
    by_contra h
    exact ((mem_minReps s m).mp hm).2 x (by omega) hxg.2

theorem groups_ordered_witness :
    (∀ g ∈ (runOps 3 [(0, 2)]).groups, g.Pairwise (· < ·)) ∧
    (∀ g ∈ (runOps 3 [(0, 2)]).groups, g ≠ []) ∧
    (((runOps 3 [(0, 2)]).groups.map (fun g => g.headD 0)).Pairwise (· < ·)) ∧
    (∀ g ∈ (runOps 3 [(0, 2)]).groups, ∀ x ∈ g, g.headD 0 ≤ x) :=
  groups_ordered (runOps 3 [(0, 2)])

example : (runOps 3 [(0, 1)]).find 0 = (runOps 3 [(0, 1)]).find 1 := by decide
example : (runOps 3 [(0, 1)]).find 0 ≠ (runOps 3 [(0, 1)]).find 2 := by decide
example : (runOps 4 [(0, 1), (2, 3), (1, 3)]).groups = [[0, 1, 2, 3]] := by decide
example : (runOps 4 [(1, 2)]).groups = [[0], [1, 2], [3]] := by decide
example : (make_set 2).groups = [[0], [1]] := by decide

/-! ### Task Manager -/

/-- State of one task, `manager.rs` / spec §3: `Running(progress)` →
`Completed(result)`. -/
inductive TaskState (P R : Type) where
  | Running : P → TaskState P R
  | Completed : R → TaskState P R
deriving DecidableEq

/-- The `TaskResponse` as consumed by `main.rs` (`poll` match arms):
`Pending(progress)` or `Completed(result)`. -/
inductive TaskResponse (P R : Type) where
  | Pending : P → TaskResponse P R
  | Completed : R → TaskResponse P R
deriving DecidableEq

/-- Modelled from the spec: §4.4 — the registry maps opaque ids to task
states; entries are retained indefinitely (no eviction). -/
def TaskManager (I P R : Type) : Type :=
  List (I × TaskState P R)

def lookupTask {I P R : Type} [DecidableEq I] :
    TaskManager I P R → I → Option (TaskState P R)
  | [], _ => none
  | e :: m, id => if e.1 = id then some e.2 else lookupTask m id

/-- Events affecting the registry: a submit command arriving at the loop,
and the progress/completion signals from a task's background work. -/
inductive TMEvent (I P R : Type) where
  | submit : I → TMEvent I P R
  | progress : I → P → TMEvent I P R
  | complete : I → R → TMEvent I P R
deriving DecidableEq

/-- A running task's worker moves its state to a newer progress value;
a completed task is never touched again. -/
def progressUpdate {P R : Type} (p : P) : TaskState P R → TaskState P R
  | TaskState.Running _ => TaskState.Running p
  | st => st

/-- A running task's completion signal makes it `Completed`; a completed
task never changes again (`Completed` is irrevocable). -/
def completeUpdate {P R : Type} (r : R) : TaskState P R → TaskState P R
  | TaskState.Running _ => TaskState.Completed r
  | st => st

/-- Apply `f` to the state stored under `id` (no entry is added or
removed). -/
def setTask {I P R : Type} [DecidableEq I] (m : TaskManager I P R) (id : I)
    (f : TaskState P R → TaskState P R) : TaskManager I P R :=
  m.map (fun e => if e.1 = id then (e.1, f e.2) else e)

/-- Modelled from the spec: §4.4 `submit` registers the id as `Running`
and starts its single background execution (a duplicate id is a
caller-side programming error and does not re-register); §4.4/§5 a task's
work pushes progress while `Running` and fires its completion signal once,
after which `Completed` is irrevocable. -/
def tmStep {I P R : Type} [DecidableEq I] (init : P)
    (m : TaskManager I P R) : TMEvent I P R → TaskManager I P R
  | .submit id =>
    match lookupTask m id with
    | some _ => m
    | none => (id, TaskState.Running init) :: m
  | .progress id p => setTask m id (progressUpdate p)
  | .complete id r => setTask m id (completeUpdate r)

def tmRun {I P R : Type} [DecidableEq I] (init : P)
    (evs : List (TMEvent I P R)) : TaskManager I P R :=
  evs.foldl (tmStep init) []

/-- Modelled from the spec: §4.4 `poll(id)` — `None` for unknown id,
`Pending(progress)` while running, `Completed(result)` afterwards. -/
def tmPoll {I P R : Type} [DecidableEq I]
    (m : TaskManager I P R) (id : I) : Option (TaskResponse P R) :=
  (lookupTask m id).map (fun st =>
    match st with
    | TaskState.Running p => TaskResponse.Pending p
    | TaskState.Completed r => TaskResponse.Completed r)

/-- Modelled from the spec: §4.4 `progress(id)` — `Some` live subscriber
handle for a known id, `None` for an unknown id.  The handle itself is a
concurrency object (a watch receiver) abstracted to its existence. -/
def tmProgressHandle {I P R : Type} [DecidableEq I]
    (m : TaskManager I P R) (id : I) : Option Unit :=
  (lookupTask m id).map (fun _ => ())

/-- One step of the execution counter: advance the registry and count the
submits of `id` that actually register (and hence start a background
execution). -/
def startStep {I P R : Type} [DecidableEq I] (init : P) (id : I)
    (acc : TaskManager I P R × Nat) (ev : TMEvent I P R) : TaskManager I P R × Nat :=
  let inc : Nat :=
    match ev with
    | .submit id2 =>
      if id2 = id then (if (lookupTask acc.1 id2).isNone then 1 else 0) else 0
    | _ => 0
  (tmStep init acc.1 ev, acc.2 + inc)

/-- Number of background executions started for `id`: submits that
actually register (the registry has no entry for `id` at that point). -/
def tmStartCount {I P R : Type} [DecidableEq I] (init : P)
    (evs : List (TMEvent I P R)) (id : I) : Nat :=
  (evs.foldl (startStep init id) ([], 0)).2

/-! #### Registry lemmas -/

theorem lookupTask_setTask {I P R : Type} [DecidableEq I]
    (f : TaskState P R → TaskState P R) (id2 : I) :
    ∀ (m : TaskManager I P R) (id : I),
      lookupTask (setTask m id2 f) id =
        (lookupTask m id).map (fun st => if id = id2 then f st else st) := by
  intro m
  induction m with
  | nil => intro id; rfl
  | cons e m ih =>
    intro id
    by_cases he2 : e.1 = id2
    · by_cases hei : e.1 = id
      · have hii : id = id2 := by rw [← hei, he2]
        simp [setTask, lookupTask, he2, hei, hii]
      · simp only [setTask, List.map_cons, if_pos he2]
        rw [show (lookupTask ((e.1, f e.2) :: List.map (fun e => if e.1 = id2 then (e.1, f e.2) else e) m) id) = lookupTask (List.map (fun e => if e.1 = id2 then (e.1, f e.2) else e) m) id from by simp [lookupTask, hei]]
        rw [show lookupTask (e :: m) id = lookupTask m id from by simp [lookupTask, hei]]
        exact ih id
    · by_cases hei : e.1 = id
      · have hii : id ≠ id2 := by rw [← hei]; exact he2
        simp [setTask, lookupTask, he2, hei, hii]
      · simp only [setTask, List.map_cons, if_neg he2]
        rw [show (lookupTask (e :: List.map (fun e => if e.1 = id2 then (e.1, f e.2) else e) m) id) = lookupTask (List.map (fun e => if e.1 = id2 then (e.1, f e.2) else e) m) id from by simp [lookupTask, hei]]
        rw [show lookupTask (e :: m) id = lookupTask m id from by simp [lookupTask, hei]]
        exact ih id

theorem lookupTask_step_completed {I P R : Type} [DecidableEq I] (init : P)
    (m : TaskManager I P R) (id : I) (r : R)
    (h : lookupTask m id = some (TaskState.Completed r)) (ev : TMEvent I P R) :
    lookupTask (tmStep init m ev) id = some (TaskState.Completed r) := by
  match ev with
  | .submit id2 =>
    simp only [tmStep]
    cases hlook : lookupTask m id2 with
    | some st => exact h
    | none =>
      by_cases hid : id2 = id
      · rw [hid] at hlook
        rw [hlook] at h
        exact Option.noConfusion h
      · show lookupTask ((id2, TaskState.Running init) :: m) id =
          some (TaskState.Completed r)
        simpa [lookupTask, hid] using h
  | .progress id2 p =>
    simp only [tmStep]
    rw [lookupTask_setTask, h]
    by_cases hid : id = id2 <;> simp [hid, progressUpdate]
  | .complete id2 r2 =>
    simp only [tmStep]
    rw [lookupTask_setTask, h]
    by_cases hid : id = id2 <;> simp [hid, completeUpdate]

theorem lookupTask_run_completed {I P R : Type} [DecidableEq I] (init : P)
    (id : I) (r : R) :
    ∀ (more : List (TMEvent I P R)) (m : TaskManager I P R),
      lookupTask m id = some (TaskState.Completed r) →
      lookupTask (more.foldl (tmStep init) m) id = some (TaskState.Completed r) := by
  intro more
  induction more with
  | nil => intro m h; exact h
  | cons ev more ih =>
    intro m h
    exact ih (tmStep init m ev) (lookupTask_step_completed init m id r h ev)

theorem lookupTask_step_isSome {I P R : Type} [DecidableEq I] (init : P)
    (m : TaskManager I P R) (id : I) (ev : TMEvent I P R)
    (h : (lookupTask m id).isSome) : (lookupTask (tmStep init m ev) id).isSome := by
  match ev with
  | .submit id2 =>
    simp only [tmStep]
    cases hlook : lookupTask m id2 with
    | some st => exact h
    | none =>
      by_cases hid : id2 = id
      · show (lookupTask ((id2, TaskState.Running init) :: m) id).isSome
        simp [lookupTask, hid]
      · show (lookupTask ((id2, TaskState.Running init) :: m) id).isSome
        simpa [lookupTask, hid] using h
  | .progress id2 p =>
    simp only [tmStep]
    rw [lookupTask_setTask]
    simpa using h
  | .complete id2 r2 =>
    simp only [tmStep]
    rw [lookupTask_setTask]
    simpa using h

theorem lookupTask_step_none {I P R : Type} [DecidableEq I] (init : P)
    (m : TaskManager I P R) (id : I) (ev : TMEvent I P R)
    (hnot : ev ≠ TMEvent.submit id) (h : lookupTask m id = none) :
    lookupTask (tmStep init m ev) id = none := by
  match ev with
  | .submit id2 =>
    have hid : id2 ≠ id := fun hc => hnot (by rw [hc])
    simp only [tmStep]
    cases hlook : lookupTask m id2 with
    | some st => exact h
    | none =>
      show lookupTask ((id2, TaskState.Running init) :: m) id = none
      simpa [lookupTask, hid] using h
  | .progress id2 p =>
    simp only [tmStep]
    rw [lookupTask_setTask, h]
    rfl
  | .complete id2 r2 =>
    simp only [tmStep]
    rw [lookupTask_setTask, h]
    rfl

theorem startStep_fst {I P R : Type} [DecidableEq I] (init : P) (id : I) :
    ∀ (evs : List (TMEvent I P R)) (m : TaskManager I P R) (c : Nat),
      (evs.foldl (startStep init id) (m, c)).1 = evs.foldl (tmStep init) m := by
  intro evs
  induction evs with
  | nil => intro m c; rfl
  | cons ev evs ih =>
    intro m c
    simpa [startStep] using ih (tmStep init m ev) _

theorem startStep_invariant {I P R : Type} [DecidableEq I] (init : P) (id : I) :
    ∀ (evs : List (TMEvent I P R)) (m : TaskManager I P R) (c : Nat),
      ((c = 0 ∧ lookupTask m id = none) ∨ (c = 1 ∧ (lookupTask m id).isSome)) →
      (((evs.foldl (startStep init id) (m, c)).2 = 0 ∧
          lookupTask (evs.foldl (startStep init id) (m, c)).1 id = none) ∨
        ((evs.foldl (startStep init id) (m, c)).2 = 1 ∧
          (lookupTask (evs.foldl (startStep init id) (m, c)).1 id).isSome)) := by
  intro evs
  induction evs with
  | nil => intro m c hinv; exact hinv
  | cons ev evs ih =>
    intro m c hinv
    rw [List.foldl_cons]
    apply ih
    match ev with
    | .submit id2 =>
      by_cases hid : id2 = id
      · subst hid
        cases hlook : lookupTask m id2 with
        | none =>
          right
          constructor
          · rcases hinv with ⟨hc, _⟩ | ⟨_, hsome⟩
            · simp [startStep, hlook, hc]
            · rw [hlook] at hsome
              simp at hsome
          · simp only [startStep, tmStep, hlook]
            show (lookupTask ((id2, TaskState.Running init) :: m) id2).isSome
            simp [lookupTask]
        | some st =>
          right
          constructor
          · rcases hinv with ⟨_, hnone⟩ | ⟨hc, _⟩
            · rw [hnone] at hlook
              exact Option.noConfusion hlook
            · simp [startStep, hlook, hc]
          · simp only [startStep, tmStep, hlook]
            simp [hlook]
      · rcases hinv with ⟨hc, hnone⟩ | ⟨hc, hsome⟩
        · left
          refine ⟨by simp [startStep, hid, hc], ?_⟩
          show lookupTask (tmStep init m (TMEvent.submit id2)) id = none
          exact lookupTask_step_none init m id _ (by simp [hid]) hnone
        · right
          refine ⟨by simp [startStep, hid, hc], ?_⟩
          show (lookupTask (tmStep init m (TMEvent.submit id2)) id).isSome
          exact lookupTask_step_isSome init m id _ hsome
    | .progress id2 p =>
      rcases hinv with ⟨hc, hnone⟩ | ⟨hc, hsome⟩
      · left
        refine ⟨by simp [startStep, hc], ?_⟩
        show lookupTask (tmStep init m (TMEvent.progress id2 p)) id = none
        exact lookupTask_step_none init m id _ (by simp) hnone
      · right
        refine ⟨by simp [startStep, hc], ?_⟩
        show (lookupTask (tmStep init m (TMEvent.progress id2 p)) id).isSome
        exact lookupTask_step_isSome init m id _ hsome
    | .complete id2 r2 =>
      rcases hinv with ⟨hc, hnone⟩ | ⟨hc, hsome⟩
      · left
        refine ⟨by simp [startStep, hc], ?_⟩
        show lookupTask (tmStep init m (TMEvent.complete id2 r2)) id = none
        exact lookupTask_step_none init m id _ (by simp) hnone
      · right
        refine ⟨by simp [startStep, hc], ?_⟩
        show (lookupTask (tmStep init m (TMEvent.complete id2 r2)) id).isSome
        exact lookupTask_step_isSome init m id _ hsome

theorem tmStartCount_le_one {I P R : Type} [DecidableEq I] (init : P)
    (evs : List (TMEvent I P R)) (id : I) : tmStartCount init evs id ≤ 1 := by
  have := startStep_invariant init id evs [] 0 (Or.inl ⟨rfl, rfl⟩)
  unfold tmStartCount
  rcases this with ⟨hc, _⟩ | ⟨hc, _⟩ <;> omega

theorem lookupTask_run_isSome {I P R : Type} [DecidableEq I] (init : P) (id : I) :
    ∀ (evs : List (TMEvent I P R)) (m : TaskManager I P R),
      (lookupTask m id).isSome →
      (lookupTask (evs.foldl (tmStep init) m) id).isSome := by
  intro evs
  induction evs with
  | nil => intro m h; exact h
  | cons ev evs ih =>
    intro m h
    rw [List.foldl_cons]
    exact ih (tmStep init m ev) (lookupTask_step_isSome init m id ev h)

theorem lookupTask_submit_isSome {I P R : Type} [DecidableEq I] (init : P)
    (m : TaskManager I P R) (id : I) :
    (lookupTask (tmStep init m (TMEvent.submit id)) id).isSome := by
  simp only [tmStep]
  cases hlook : lookupTask m id with
  | some st => rw [hlook]; rfl
  | none =>
    show (lookupTask ((id, TaskState.Running init) :: m) id).isSome
    simp [lookupTask]

theorem lookupTask_run_submitted {I P R : Type} [DecidableEq I] (init : P) (id : I) :
    ∀ (evs : List (TMEvent I P R)) (m : TaskManager I P R),
      TMEvent.submit id ∈ evs →
      (lookupTask (evs.foldl (tmStep init) m) id).isSome := by
  intro evs
  induction evs with
  | nil => intro m h; simp at h
  | cons ev evs ih =>
    intro m h
    rw [List.foldl_cons]
    rcases List.mem_cons.mp h with hc | hc
    · subst hc
      exact lookupTask_run_isSome init id evs _ (lookupTask_submit_isSome init m id)
    · exact ih (tmStep init m ev) hc

theorem tmStartCount_eq_one {I P R : Type} [DecidableEq I] (init : P)
    (evs : List (TMEvent I P R)) (id : I) (h : TMEvent.submit id ∈ evs) :
    tmStartCount init evs id = 1 := by
  have hinv := startStep_invariant init id evs [] 0 (Or.inl ⟨rfl, rfl⟩)
  have hfst := startStep_fst init id evs [] 0
  have hsome : (lookupTask (evs.foldl (tmStep init) ([] : TaskManager I P R)) id).isSome :=
    lookupTask_run_submitted init id evs [] h
  unfold tmStartCount
  rcases hinv with ⟨_, hnone⟩ | ⟨hc, _⟩
  · rw [hfst] at hnone
    rw [hnone] at hsome
    exact absurd hsome (by simp)
  · exact hc

theorem tmPoll_completed_iff {I P R : Type} [DecidableEq I]
    (m : TaskManager I P R) (id : I) (r : R) :
    tmPoll m id = some (TaskResponse.Completed r) ↔
      lookupTask m id = some (TaskState.Completed r) := by
  unfold tmPoll
  cases lookupTask m id with
  | none => simp
  | some st =>
    cases st with
    | Running p => simp
    | Completed r2 => simp

theorem lookupTask_run_not_submitted {I P R : Type} [DecidableEq I] (init : P)
    (id : I) :
    ∀ (evs : List (TMEvent I P R)) (m : TaskManager I P R),
      TMEvent.submit id ∉ evs → lookupTask m id = none →
      lookupTask (evs.foldl (tmStep init) m) id = none := by
  intro evs
  induction evs with
  | nil => intro m _ h; exact h
  | cons ev evs ih =>
    intro m hmem h
    rw [List.foldl_cons]
    refine ih (tmStep init m ev) (fun hc => hmem (List.mem_cons_of_mem ev hc)) ?_
    refine lookupTask_step_none init m id ev ?_ h
    intro hc
    exact hmem (hc ▸ List.mem_cons_self ev evs)

/-- C2: For every task id, once `poll(id)` has returned `Completed(r)`,
every later poll returns `Completed(r)` with the same result; the state
never regresses to `Running` (`Pending`); and there is exactly one
background execution per id: every submitted id starts exactly one, and
no id ever starts more than one. -/
theorem tm_completed_irrevocable {I P R : Type} [DecidableEq I] (init : P)
    (evs more : List (TMEvent I P R)) (id : I) (r : R)
    (h : tmPoll (tmRun init evs) id = some (TaskResponse.Completed r)) :
    tmPoll (tmRun init (evs ++ more)) id = some (TaskResponse.Completed r) ∧
    (∀ p : P, tmPoll (tmRun init (evs ++ more)) id ≠ some (TaskResponse.Pending p)) ∧
    (∀ id2 : I, TMEvent.submit id2 ∈ evs ++ more →
      tmStartCount init (evs ++ more) id2 = 1) ∧
    (∀ id2 : I, tmStartCount init (evs ++ more) id2 ≤ 1) := by
  have hlook : lookupTask (tmRun init evs) id = some (TaskState.Completed r) :=
    (tmPoll_completed_iff _ id r).mp h
  have hrun : tmRun init (evs ++ more) = more.foldl (tmStep init) (tmRun init evs) := by
    unfold tmRun
    rw [List.foldl_append]
  have hlook2 : lookupTask (tmRun init (evs ++ more)) id = some (TaskState.Completed r) := by
    rw [hrun]
    exact lookupTask_run_completed init id r more (tmRun init evs) hlook
  have hpoll2 : tmPoll (tmRun init (evs ++ more)) id = some (TaskResponse.Completed r) :=
    (tmPoll_completed_iff _ id r).mpr hlook2
  refine ⟨hpoll2, ?_, fun id2 hmem => tmStartCount_eq_one init (evs ++ more) id2 hmem,
    fun id2 => tmStartCount_le_one init (evs ++ more) id2⟩
  intro p hcon
  rw [hpoll2] at hcon
  exact Option.noConfusion hcon (fun h2 => TaskResponse.noConfusion h2)

theorem tm_completed_irrevocable_witness :
    (tmPoll (tmRun (I := Nat) (P := Nat) (R := Nat) 0
        [TMEvent.submit 7, TMEvent.progress 7 1, TMEvent.complete 7 42]) 7 =
      some (TaskResponse.Completed 42)) ∧
    (tmPoll (tmRun (I := Nat) (P := Nat) (R := Nat) 0
        ([TMEvent.submit 7, TMEvent.progress 7 1, TMEvent.complete 7 42] ++
          [TMEvent.progress 7 5, TMEvent.submit 7, TMEvent.complete 7 9])) 7 =
      some (TaskResponse.Completed 42) ∧
    (∀ p : Nat, tmPoll (tmRun (I := Nat) (P := Nat) (R := Nat) 0
        ([TMEvent.submit 7, TMEvent.progress 7 1, TMEvent.complete 7 42] ++
          [TMEvent.progress 7 5, TMEvent.submit 7, TMEvent.complete 7 9])) 7 ≠
      some (TaskResponse.Pending p)) ∧
    (∀ id2 : Nat, TMEvent.submit id2 ∈
        ([TMEvent.submit (I := Nat) (P := Nat) (R := Nat) 7, TMEvent.progress 7 1,
          TMEvent.complete 7 42] ++
          [TMEvent.progress 7 5, TMEvent.submit 7, TMEvent.complete 7 9]) →
      tmStartCount (I := Nat) (P := Nat) (R := Nat) 0
        ([TMEvent.submit 7, TMEvent.progress 7 1, TMEvent.complete 7 42] ++
          [TMEvent.progress 7 5, TMEvent.submit 7, TMEvent.complete 7 9]) id2 = 1) ∧
    (∀ id2 : Nat, tmStartCount (I := Nat) (P := Nat) (R := Nat) 0
        ([TMEvent.submit 7, TMEvent.progress 7 1, TMEvent.complete 7 42] ++
          [TMEvent.progress 7 5, TMEvent.submit 7, TMEvent.complete 7 9]) id2 ≤ 1)) :=
  ⟨by decide, tm_completed_irrevocable 0
    [TMEvent.submit 7, TMEvent.progress 7 1, TMEvent.complete 7 42]
    [TMEvent.progress 7 5, TMEvent.submit 7, TMEvent.complete 7 9] 7 42 (by decide)⟩

/-! ### HTTP adapter, embedded from `main.rs` -/

/-- Groups as returned to the client.  Modelled from the spec: §3
**Groups** — ordered sequences of file identities, one per equivalence
class (the `Groups` type lives in the missing `analyzer` module). -/
abbrev Groups := List (List String)

/-- The analyzer's task result: `Result<Groups>` with `eyre` errors,
abstracted to their display string (`main.rs` line 37). -/
abbrev TaskResult := Except String Groups

/-- The `AppError` type from `main.rs` lines 92-95: either an internal error
wrapping a report, or an explicitly provided status code. -/
inductive AppError where
  | Internal : String → AppError
  | Provided : Nat → AppError
deriving DecidableEq

/-- Embeds `AppError::not_found` (`main.rs` lines 98-100): status 404. -/
def AppError.not_found : AppError :=
  AppError.Provided 404

/-- Embeds `AppError::into_response` (`main.rs` lines 112-120): `Internal` maps
to status 500 (INTERNAL_SERVER_ERROR), `Provided` to its own code. -/
def AppError.into_response : AppError → Nat
  | AppError.Internal _ => 500
  | AppError.Provided code => code

/-- Status code of a `JsonResponse` as sent on the wire: a successful
`Json` body goes out with 200, an `AppError` with its `into_response`. -/
def responseStatus {α : Type} : Except AppError α → Nat
  | Except.ok _ => 200
  | Except.error e => e.into_response

def ClientError (s : Nat) : Prop := 400 ≤ s ∧ s < 500

def ServerError (s : Nat) : Prop := 500 ≤ s ∧ s < 600

/-- The `AnalyzeResponse` type from `main.rs` lines 129-135, serialized with a
`type` tag. -/
inductive AnalyzeResponse where
  | Pending : Nat → AnalyzeResponse
  | Completed : Groups → AnalyzeResponse
  | Failed : String → AnalyzeResponse
deriving DecidableEq

/-- The serde `tag = "type"` discriminant of an `AnalyzeResponse`. -/
def AnalyzeResponse.tag : AnalyzeResponse → String
  | AnalyzeResponse.Pending _ => "Pending"
  | AnalyzeResponse.Completed _ => "Completed"
  | AnalyzeResponse.Failed _ => "Failed"

/-- The `list_folder` handler (`main.rs` lines 148-151): `analyzer::list_dir`
is in the missing module, so its outcome is the argument; the `?`
operator converts any failure through `From<Report> for AppError` into
`AppError::Internal`. `FileInfo` (path, kind, size per spec §3) is
abstracted by the type parameter. -/
def list_folder {F : Type} (dirResult : Except String (List F)) :
    Except AppError (List F) :=
  match dirResult with
  | Except.ok files => Except.ok files
  | Except.error e => Except.error (AppError.Internal e)

/-- The `poll` handler tail (`main.rs` lines 180-186), applied to the
manager's reply: `None` becomes `AppError::not_found`; otherwise the
`TaskResponse` is mapped onto the tagged `AnalyzeResponse`. -/
def poll_handler (resp : Option (TaskResponse Nat TaskResult)) :
    Except AppError AnalyzeResponse :=
  match resp with
  | none => Except.error AppError.not_found
  | some (TaskResponse.Pending progress) => Except.ok (AnalyzeResponse.Pending progress)
  | some (TaskResponse.Completed (Except.ok data)) =>
    Except.ok (AnalyzeResponse.Completed data)
  | some (TaskResponse.Completed (Except.error err)) =>
    Except.ok (AnalyzeResponse.Failed err)

/-- The `subscribe` handler tail (`main.rs` lines 202-205): `None` becomes
`AppError::not_found`, a present receiver yields the SSE stream
(abstracted to its existence). -/
def subscribe_handler (resp : Option Unit) : Except AppError Unit :=
  match resp with
  | none => Except.error AppError.not_found
  | some _ => Except.ok ()

/-- C4: For every task id never submitted, both `poll` and `subscribe`
report not-found (the handlers map the manager's `None` to 404), which is
not a server error. -/
theorem unknown_id_not_found {I : Type} [DecidableEq I] (init : Nat)
    (evs : List (TMEvent I Nat TaskResult)) (id : I)
    (h : TMEvent.submit id ∉ evs) :
    poll_handler (tmPoll (tmRun init evs) id) = Except.error AppError.not_found ∧
    subscribe_handler (tmProgressHandle (tmRun init evs) id) =
      Except.error AppError.not_found ∧
    responseStatus (poll_handler (tmPoll (tmRun init evs) id)) = 404 ∧
    responseStatus (subscribe_handler (tmProgressHandle (tmRun init evs) id)) = 404 ∧
    ¬ ServerError 404 := by
  have hlook : lookupTask (tmRun init evs) id = none :=
    lookupTask_run_not_submitted init id evs [] h rfl
  have hpoll : tmPoll (tmRun init evs) id = none := by
    unfold tmPoll
    rw [hlook]
    rfl
  have hprog : tmProgressHandle (tmRun init evs) id = none := by
    unfold tmProgressHandle
    rw [hlook]
    rfl
  rw [hpoll, hprog]
  refine ⟨rfl, rfl, rfl, rfl, ?_⟩
  intro hse
  unfold ServerError at hse
  omega

theorem unknown_id_not_found_witness :
    (TMEvent.submit 3 ∉
      [TMEvent.submit (I := Nat) (P := Nat) (R := TaskResult) 7,
        TMEvent.complete 7 (Except.error "boom" : TaskResult)]) ∧
    (poll_handler (tmPoll (tmRun (I := Nat) 0
        [TMEvent.submit 7, TMEvent.complete 7 (Except.error "boom" : TaskResult)]) 3) =
      Except.error AppError.not_found ∧
    subscribe_handler (tmProgressHandle (tmRun (I := Nat) 0
        [TMEvent.submit 7, TMEvent.complete 7 (Except.error "boom" : TaskResult)]) 3) =
      Except.error AppError.not_found ∧
    responseStatus (poll_handler (tmPoll (tmRun (I := Nat) 0
        [TMEvent.submit 7, TMEvent.complete 7 (Except.error "boom" : TaskResult)]) 3)) = 404 ∧
    responseStatus (subscribe_handler (tmProgressHandle (tmRun (I := Nat) 0
        [TMEvent.submit 7, TMEvent.complete 7 (Except.error "boom" : TaskResult)]) 3)) = 404 ∧
    ¬ ServerError 404) :=
  ⟨by simp, unknown_id_not_found 0
    [TMEvent.submit 7, TMEvent.complete 7 (Except.error "boom" : TaskResult)] 3 (by simp)⟩

/-- C3 counterexample: on a failing `list_dir` the endpoint answers 500,
which is not a client error status — refuting the claim that a bad path
yields a client error. -/
theorem list_folder_counterexample :
    responseStatus (list_folder (F := Unit)
        (Except.error "No such file or directory")) = 500 ∧
    ¬ ClientError (responseStatus (list_folder (F := Unit)
        (Except.error "No such file or directory"))) := by
  constructor
  · rfl
  · intro hce
    unfold ClientError at hce
    simp only [list_folder, responseStatus, AppError.into_response] at hce
    omega

/-- C3 (amended): For every path for which `list_dir` fails, the
`list_folder` endpoint responds with status 500 (Internal Server Error) —
a server error, not a client error. -/
theorem list_folder_error_status {F : Type} (e : String) :
    list_folder (F := F) (Except.error e) =
      Except.error (AppError.Internal e) ∧
    responseStatus (list_folder (F := F) (Except.error e)) = 500 ∧
    ServerError (responseStatus (list_folder (F := F) (Except.error e))) ∧
    ¬ ClientError (responseStatus (list_folder (F := F) (Except.error e))) := by
  refine ⟨rfl, rfl, ?_, ?_⟩
  · show ServerError 500
    unfold ServerError
    omega
  · show ¬ ClientError 500
    intro hce
    unfold ClientError at hce
    omega

/-- C7: The `poll` adapter serializes the manager's reply as a tagged
value — `Pending` carries the progress count, a successful completion the
`Groups` data, a failed completion a descriptive error string — and the
failure tag is distinguishable from the success tag. -/
theorem poll_serializes_tagged (p : Nat) (g : Groups) (e : String) :
    poll_handler (some (TaskResponse.Pending p)) =
      Except.ok (AnalyzeResponse.Pending p) ∧
    poll_handler (some (TaskResponse.Completed (Except.ok g))) =
      Except.ok (AnalyzeResponse.Completed g) ∧
    poll_handler (some (TaskResponse.Completed (Except.error e))) =
      Except.ok (AnalyzeResponse.Failed e) ∧
    (AnalyzeResponse.Failed e).tag ≠ (AnalyzeResponse.Completed g).tag ∧
    AnalyzeResponse.Failed e ≠ AnalyzeResponse.Completed g := by
  refine ⟨rfl, rfl, rfl, ?_, ?_⟩
  · intro hc
    exact absurd hc (by simp [AnalyzeResponse.tag])
  · intro hc
    exact AnalyzeResponse.noConfusion hc

/-! ### Fingerprint Cache -/

def assocLookup {K V : Type} [DecidableEq K] : List (K × V) → K → Option V
  | [], _ => none
  | e :: l, k => if e.1 = k then some e.2 else assocLookup l k

/-- Modelled from the spec: §4.2 Fingerprint Cache — `get_or_compute(key,
compute_fn)` returns the cached value if fresh (the identity key is
unchanged), else computes, stores and returns (the `cache` module is
missing from the tree).  The third component counts how often the compute
function was invoked by this call. -/
def get_or_compute {K V : Type} [DecidableEq K] (cache : List (K × V)) (k : K)
    (f : Unit → V) : V × List (K × V) × Nat :=
  match assocLookup cache k with
  | some v => (v, cache, 0)
  | none =>
    let v := f ()
    (v, (k, v) :: cache, 1)

/-- C6: calling `get_or_compute(k, f)` twice with the key's identity
unchanged invokes `f` at most once in the single-threaded case, both
calls return equal values, and on a miss the computed value is stored and
returned. -/
theorem cache_get_or_compute {K V : Type} [DecidableEq K]
    (cache : List (K × V)) (k : K) (f : Unit → V) :
    (get_or_compute cache k f).2.2 +
      (get_or_compute (get_or_compute cache k f).2.1 k f).2.2 ≤ 1 ∧
    (get_or_compute (get_or_compute cache k f).2.1 k f).1 =
      (get_or_compute cache k f).1 ∧
    (assocLookup cache k = none →
      (get_or_compute cache k f).1 = f () ∧
      assocLookup (get_or_compute cache k f).2.1 k =
        some (get_or_compute cache k f).1) := by
  cases hl : assocLookup cache k with
  | some v =>
    refine ⟨?_, ?_, ?_⟩
    · simp [get_or_compute, hl]
    · simp [get_or_compute, hl]
    · intro hc
      exact Option.noConfusion hc
  | none =>
    have hl2 : assocLookup ((k, f ()) :: cache) k = some (f ()) := by
      simp [assocLookup]
    refine ⟨?_, ?_, fun _ => ⟨?_, ?_⟩⟩
    · simp [get_or_compute, hl, hl2]
    · simp [get_or_compute, hl, hl2]
    · simp [get_or_compute, hl]
    · simp [get_or_compute, hl, hl2]

theorem cache_get_or_compute_witness :
    (get_or_compute ([] : List (Nat × Nat)) 1 (fun _ => 5)).2.2 +
      (get_or_compute (get_or_compute ([] : List (Nat × Nat)) 1 (fun _ => 5)).2.1 1
        (fun _ => 5)).2.2 ≤ 1 ∧
    (get_or_compute (get_or_compute ([] : List (Nat × Nat)) 1 (fun _ => 5)).2.1 1
        (fun _ => 5)).1 = (get_or_compute ([] : List (Nat × Nat)) 1 (fun _ => 5)).1 ∧
    (assocLookup ([] : List (Nat × Nat)) 1 = none →
      (get_or_compute ([] : List (Nat × Nat)) 1 (fun _ => 5)).1 = (fun _ : Unit => 5) () ∧
      assocLookup (get_or_compute ([] : List (Nat × Nat)) 1 (fun _ => 5)).2.1 1 =
        some (get_or_compute ([] : List (Nat × Nat)) 1 (fun _ => 5)).1) :=
  cache_get_or_compute ([] : List (Nat × Nat)) 1 (fun _ => 5)

/-! ### Clustering Engine -/

/-- Modelled from the spec: §4.3 steps 2 and 5 — for each candidate file,
obtain its fingerprint (one unit of work) and then push a progress count;
returns the pushed progress sequence and the fingerprints. -/
def fingerprintPhase {α β : Type} (files : List α) (fp : α → β) :
    List Nat × List β :=
  files.foldl
    (fun acc f => (acc.1 ++ [acc.1.length + 1], acc.2 ++ [fp f]))
    ([], [])

/-- Modelled from the spec: §4.3 step 4 — the index pairs `(i, j)`,
`i < j`, whose fingerprints are equivalent (exact match or within the
similarity threshold, abstracted as `close`). -/
def analyzePairs {β : Type} (fps : List β) (close : β → β → Bool) (dflt : β) :
    List (Nat × Nat) :=
  (List.range fps.length).flatMap (fun i =>
    ((List.range fps.length).filter
      (fun j => decide (i < j) && close (fps.getD i dflt) (fps.getD j dflt))).map
      (fun j => (i, j)))

/-- Modelled from the spec: §4.3 Clustering Engine `analyze` — fingerprint
every candidate (pushing progress per unit of work), union equivalent
pairs in a Disjoint-Set over the candidates, and return the pushed
progress sequence together with the final partition. -/
def analyze {α β : Type} (files : List α) (fp : α → β) (close : β → β → Bool)
    (dflt : β) : List Nat × List (List Nat) :=
  let phase := fingerprintPhase files fp
  let s := runOps files.length (analyzePairs phase.2 close dflt)
  (phase.1, s.groups)

theorem fingerprintPhase_fst_aux {α β : Type} (fp : α → β) :
    ∀ (files : List α) (acc : List Nat × List β),
      (files.foldl (fun acc f => (acc.1 ++ [acc.1.length + 1], acc.2 ++ [fp f])) acc).1 =
        acc.1 ++ List.range' (acc.1.length + 1) files.length := by
  intro files
  induction files with
  | nil => intro acc; simp
  | cons f fs ih =>
    intro acc
    rw [List.foldl_cons, ih]
    have hlen : (acc.1 ++ [acc.1.length + 1]).length = acc.1.length + 1 := by simp
    rw [hlen, List.append_assoc, List.singleton_append,
      show (f :: fs).length = fs.length + 1 from rfl, List.range'_succ]

theorem fingerprintPhase_fst {α β : Type} (files : List α) (fp : α → β) :
    (fingerprintPhase files fp).1 = List.range' 1 files.length := by
  unfold fingerprintPhase
  rw [fingerprintPhase_fst_aux fp files ([], [])]
  simp

/-- C5: For every analyze run, the sequence of progress counts pushed to
the progress sink is monotonically non-decreasing (in fact strictly
increasing), there is exactly one push per unit of work, and when any
work was done the final pushed value equals the total unit count. -/
theorem analyze_progress {α β : Type} (files : List α) (fp : α → β)
    (close : β → β → Bool) (dflt : β) :
    List.Chain' (· ≤ ·) (analyze files fp close dflt).1 ∧
    (analyze files fp close dflt).1.length = files.length ∧
    (files ≠ [] → (analyze files fp close dflt).1.getLast? = some files.length) := by
  have htrace : (analyze files fp close dflt).1 = List.range' 1 files.length := by
    unfold analyze
    exact fingerprintPhase_fst files fp
  rw [htrace]
  refine ⟨?_, by simp, ?_⟩
  · rw [List.chain'_iff_pairwise]
    exact (List.pairwise_lt_range' 1 files.length).imp Nat.le_of_lt
  · intro hne
    have hlen : files.length ≠ 0 := fun hc => hne (List.length_eq_zero.mp hc)
    obtain ⟨n, hn⟩ := Nat.exists_eq_succ_of_ne_zero hlen
    rw [hn, List.range'_1_concat, List.getLast?_concat]
    congr 1
    omega

theorem analyze_progress_witness :
    List.Chain' (· ≤ ·) (analyze ["a", "b", "a"] (fun f => f) BEq.beq "").1 ∧
    (analyze ["a", "b", "a"] (fun f => f) BEq.beq "").1.length =
      (["a", "b", "a"] : List String).length ∧
    ((["a", "b", "a"] : List String) ≠ [] →
      (analyze ["a", "b", "a"] (fun f => f) BEq.beq "").1.getLast? =
        some (["a", "b", "a"] : List String).length) :=
  analyze_progress ["a", "b", "a"] (fun f => f) BEq.beq ""

example : (analyze ["a", "b", "a"] (fun f => f) BEq.beq "").1 = [1, 2, 3] := by decide
example : (analyze ["a", "b", "a"] (fun f => f) BEq.beq "").2 = [[0, 2], [1]] := by decide
example : (analyze ([] : List String) (fun f => f) BEq.beq "").1 = [] := by decide
example : (analyze ([] : List String) (fun f => f) BEq.beq "").2 = [] := by decide

/-! ### Command loop (`task_analyzer`, `main.rs` lines 45-84) -/

/-- A command arriving at the loop, together with whether the caller's
oneshot reply channel is still alive when the loop answers.  For `submit`,
the payload is the result its background work will produce (the analyzer
is abstracted). -/
inductive LoopCommand where
  | submit : TaskResult → Bool → LoopCommand
  | subscribe : Nat → Bool → LoopCommand
  | poll : Nat → Bool → LoopCommand

/-- The same command with a live reply channel. -/
def reviveCmd : LoopCommand → LoopCommand
  | LoopCommand.submit r _ => LoopCommand.submit r true
  | LoopCommand.subscribe i _ => LoopCommand.subscribe i true
  | LoopCommand.poll i _ => LoopCommand.poll i true

/-- Loop state: the retained task results (the manager's registry, with
each submitted task's work run to completion — spec §4.4/§7: execution is
independent of caller presence and the result is retained), the next
fresh id, how many commands were processed, and how many failed reply
sends were logged. -/
structure LoopState where
  completed : List (Nat × TaskResult)
  nextId : Nat
  processed : Nat
  errorsLogged : Nat

/-- Embeds the reply-send failure handling (a dead reply channel is one
logged error, nothing else). -/
def replyFailures (alive : Bool) : Nat :=
  if alive then 0 else 1

/-- One iteration of the `while let Some(command) = rx.recv().await` loop
(`main.rs` lines 51-80): `Submit` registers the task and starts its work
(modelled as running to completion with its result retained) before the
reply is attempted; `Subscribe`/`Poll` only read.  In every arm the reply
send's failure is logged and otherwise ignored. -/
def loopStep (st : LoopState) (c : LoopCommand) : LoopState :=
  match c with
  | LoopCommand.submit res alive =>
    { completed := st.completed ++ [(st.nextId, res)]
      nextId := st.nextId + 1
      processed := st.processed + 1
      errorsLogged := st.errorsLogged + replyFailures alive }
  | LoopCommand.subscribe _ alive =>
    { st with
      processed := st.processed + 1
      errorsLogged := st.errorsLogged + replyFailures alive }
  | LoopCommand.poll _ alive =>
    { st with
      processed := st.processed + 1
      errorsLogged := st.errorsLogged + replyFailures alive }

def loopRun (cs : List LoopCommand) : LoopState :=
  cs.foldl loopStep ⟨[], 0, 0, 0⟩

theorem loopRun_processed :
    ∀ (cs : List LoopCommand) (st : LoopState),
      (cs.foldl loopStep st).processed = st.processed + cs.length := by
  intro cs
  induction cs with
  | nil => intro st; simp
  | cons c cs ih =>
    intro st
    rw [List.foldl_cons, ih]
    match c with
    | LoopCommand.submit r alive => simp [loopStep]; omega
    | LoopCommand.subscribe i alive => simp [loopStep]; omega
    | LoopCommand.poll i alive => simp [loopStep]; omega

theorem loopRun_revive :
    ∀ (cs : List LoopCommand) (st st2 : LoopState),
      st.completed = st2.completed → st.nextId = st2.nextId →
      (cs.foldl loopStep st).completed =
        ((cs.map reviveCmd).foldl loopStep st2).completed ∧
      (cs.foldl loopStep st).nextId =
        ((cs.map reviveCmd).foldl loopStep st2).nextId := by
  intro cs
  induction cs with
  | nil => intro st st2 h1 h2; exact ⟨h1, h2⟩
  | cons c cs ih =>
    intro st st2 h1 h2
    rw [List.map_cons, List.foldl_cons, List.foldl_cons]
    apply ih
    · match c with
      | LoopCommand.submit r alive => simp [loopStep, reviveCmd, h1, h2]
      | LoopCommand.subscribe i alive => simp [loopStep, reviveCmd, h1]
      | LoopCommand.poll i alive => simp [loopStep, reviveCmd, h1]
    · match c with
      | LoopCommand.submit r alive => simp [loopStep, reviveCmd, h2]
      | LoopCommand.subscribe i alive => simp [loopStep, reviveCmd, h2]
      | LoopCommand.poll i alive => simp [loopStep, reviveCmd, h2]

theorem loopRun_retains :
    ∀ (cs : List LoopCommand) (st : LoopState) (e : Nat × TaskResult),
      e ∈ st.completed → e ∈ (cs.foldl loopStep st).completed := by
  intro cs
  induction cs with
  | nil => intro st e h; exact h
  | cons c cs ih =>
    intro st e h
    rw [List.foldl_cons]
    apply ih
    match c with
    | LoopCommand.submit r alive =>
      simp only [loopStep]
      exact List.mem_append_left _ h
    | LoopCommand.subscribe i alive => exact h
    | LoopCommand.poll i alive => exact h

theorem loopRun_submit_completes :
    ∀ (cs : List LoopCommand) (st : LoopState) (r : TaskResult) (alive : Bool),
      LoopCommand.submit r alive ∈ cs →
      ∃ id, (id, r) ∈ (cs.foldl loopStep st).completed := by
  intro cs
  induction cs with
  | nil => intro st r alive h; simp at h
  | cons c cs ih =>
    intro st r alive h
    rw [List.foldl_cons]
    rcases List.mem_cons.mp h with hc | hc
    · refine ⟨st.nextId, ?_⟩
      apply loopRun_retains
      rw [← hc]
      simp [loopStep]
    · exact ih (loopStep st c) r alive hc

/-- C9: a failed send on a reply channel is logged and otherwise ignored:
the loop still processes every command; the registry contents (and the id
sequence) are exactly what they would be had every caller stayed; and for
every `Submit` the background work runs to completion and its result is
retained, regardless of the reply's delivery. -/
theorem loop_reply_failure_ignored (cs : List LoopCommand) :
    (loopRun cs).processed = cs.length ∧
    (loopRun cs).completed = (loopRun (cs.map reviveCmd)).completed ∧
    (∀ r alive, LoopCommand.submit r alive ∈ cs →
      ∃ id, (id, r) ∈ (loopRun cs).completed) ∧
    (loopRun cs).errorsLogged =
      (cs.filter (fun c =>
        match c with
        | LoopCommand.submit _ alive => !alive
        | LoopCommand.subscribe _ alive => !alive
        | LoopCommand.poll _ alive => !alive)).length := by
  refine ⟨?_, ?_, ?_, ?_⟩
  · unfold loopRun
    rw [loopRun_processed]
    simp
  · exact (loopRun_revive cs ⟨[], 0, 0, 0⟩ ⟨[], 0, 0, 0⟩ rfl rfl).1
  · intro r alive h
    exact loopRun_submit_completes cs ⟨[], 0, 0, 0⟩ r alive h
  · suffices haux : ∀ (l : List LoopCommand) (st : LoopState),
        (l.foldl loopStep st).errorsLogged = st.errorsLogged +
          (l.filter (fun c =>
            match c with
            | LoopCommand.submit _ alive => !alive
            | LoopCommand.subscribe _ alive => !alive
            | LoopCommand.poll _ alive => !alive)).length by
      unfold loopRun
      rw [haux]
      simp
    intro l
    induction l with
    | nil => intro st; simp
    | cons c l ih =>
      intro st
      rw [List.foldl_cons, ih]
      match c with
      | LoopCommand.submit r alive =>
        cases alive <;> (simp [loopStep, replyFailures]; try omega)
      | LoopCommand.subscribe i alive =>
        cases alive <;> (simp [loopStep, replyFailures]; try omega)
      | LoopCommand.poll i alive =>
        cases alive <;> (simp [loopStep, replyFailures]; try omega)

theorem loop_reply_failure_ignored_witness :
    (loopRun [LoopCommand.submit (Except.ok [["x"]]) false,
        LoopCommand.poll 0 false]).processed = 2 ∧
    ((LoopCommand.submit (Except.ok [["x"]] : TaskResult) false) ∈
      [LoopCommand.submit (Except.ok [["x"]] : TaskResult) false,
        LoopCommand.poll 0 false] ∧
      ∃ id, (id, (Except.ok [["x"]] : TaskResult)) ∈
        (loopRun [LoopCommand.submit (Except.ok [["x"]]) false,
          LoopCommand.poll 0 false]).completed) :=
  ⟨(loop_reply_failure_ignored [LoopCommand.submit (Except.ok [["x"]]) false,
      LoopCommand.poll 0 false]).1,
    by simp,
    (loop_reply_failure_ignored [LoopCommand.submit (Except.ok [["x"]]) false,
      LoopCommand.poll 0 false]).2.2.1 (Except.ok [["x"]]) false (by simp)⟩

/-! ### The `/image` route (`main.rs` lines 218-223) -/

/-- The `PathParams` query shape (`main.rs` lines 137-140). -/
structure PathParams where
  path : String
deriving DecidableEq

/-- Decoding `Query::try_from_uri` for `PathParams` — succeeds exactly when the
request's query string carries a decodable `path` parameter. -/
def queryDecodePathParams (query : List (String × String)) : Option PathParams :=
  (assocLookup query "path").map PathParams.mk

/-- Outcome of the `/image` closure: the `unwrap` panics, or the file at
the decoded path is served. -/
inductive ImageOutcome where
  | panicked : ImageOutcome
  | served : String → ImageOutcome
deriving DecidableEq

/-- The `/image` route closure (`main.rs` lines 218-223):
`Query::try_from_uri(request.uri()).unwrap()` followed by
`ServeFile::new(&params.path)`.  The `unwrap` of a failed extraction is a
panic, not an error response (the code's own `TODO: handle errors here`
marks it). -/
def image_handler (query : List (String × String)) : ImageOutcome :=
  match queryDecodePathParams query with
  | none => ImageOutcome.panicked
  | some params => ImageOutcome.served params.path

/-- C10: a request to `/image` whose URI lacks a decodable `path` query
parameter makes the handler's `unwrap` panic instead of producing an
error response; the handler is total exactly on the requests whose query
decodes to `PathParams`. -/
theorem image_handler_panics :
    image_handler [] = ImageOutcome.panicked ∧
    (∀ q, queryDecodePathParams q = none → image_handler q = ImageOutcome.panicked) ∧
    (∀ q p, queryDecodePathParams q = some p →
      image_handler q = ImageOutcome.served p.path) := by
  refine ⟨rfl, ?_, ?_⟩
  · intro q hq
    unfold image_handler
    rw [hq]
  · intro q p hq
    unfold image_handler
    rw [hq]

theorem image_handler_panics_witness :
    image_handler [] = ImageOutcome.panicked ∧
    image_handler [("path", "cat.jpg")] = ImageOutcome.served "cat.jpg" :=
  ⟨image_handler_panics.1,
    image_handler_panics.2.2 [("path", "cat.jpg")] ⟨"cat.jpg"⟩ rfl⟩

end ImageDedup
